import Mathlib

/-!
A shallow embedding of the static-single-assignment renaming pass
(`compiler/passes/src/static_single_assignment/rename_program.rs`):
the record normalizer (`consume_struct`), the function/finalize driver
(`consume_function`), and the program/scope traversal
(`consume_program_scope`, `consume_program`), together with theorems about
record member reordering, scope isolation and field preservation.

The rename table and the statement-level block consumer are not part of the
examined slice; they are modelled from the specification (a stack of
per-scope symbol-to-symbol frames; a parametric block consumer assumed to
balance the scopes it enters).  Fallible code (the `unwrap` calls on the
reserved record fields) is embedded in `Except`.
-/

namespace SSA

/-- An interned symbol (`leo_span::Symbol`), modelled as a string. -/
abbrev Symbol := String

/-- Source-position metadata; carried through opaquely, modelled as a number. -/
abbrev Span := Nat

/-- Modelled from the spec: an identifier is a name plus opaque span metadata. -/
structure Identifier where
  name : Symbol
  span : Span
  deriving DecidableEq, Repr

/-- The reserved record member name `sym::owner`. -/
def symOwner : Symbol := "owner"

/-- The reserved record member name `sym::gates`. -/
def symGates : Symbol := "gates"

/-- Modelled from the spec: a struct member is a name plus a declared type. -/
structure Member where
  identifier : Identifier
  type_ : String
  deriving DecidableEq, Repr

/-- Modelled from the spec: a struct/record declaration (name, ordered member
sequence, record flag, span). -/
structure Struct where
  identifier : Identifier
  members : List Member
  is_record : Bool
  span : Span
  deriving DecidableEq, Repr

/-- `IndexMap::insert` of the indexmap crate: if an equivalent key is present,
the value at that key's existing position is replaced; otherwise the new pair
is appended at the end. -/
def mapInsert (k : Symbol) (v : α) : List (Symbol × α) → List (Symbol × α)
  | [] => [(k, v)]
  | (k', v') :: rest =>
    if k' == k then (k', v) :: rest else (k', v') :: mapInsert k v rest

/-- `IndexMap::remove` of the indexmap crate (version 1.x): **swap_remove**
semantics.  The first entry matching the key is removed and the map's last
entry is moved into the vacated slot; returns the removed value and the
perturbed map, or `none` when the key is absent. -/
def swapRemove (k : Symbol) : List (Symbol × α) → Option (α × List (Symbol × α))
  | [] => none
  | (k', v) :: rest =>
    if k' == k then
      match rest.getLast? with
      | none => some (v, [])
      | some lastEntry => some (v, lastEntry :: rest.dropLast)
    else
      match swapRemove k rest with
      | none => none
      | some (v', rest') => some (v', (k', v) :: rest')

/-- The fixed message of a Rust `Option::unwrap()` panic on `None`. -/
def unwrapPanicMsg : String := "called `Option::unwrap()` on a `None` value"

/-- The `IndexMap<Symbol, Member>` built by `consume_struct` from the member
list (`.map(|member| (member.identifier.name, member)).collect()`). -/
def buildMemberMap (members : List Member) : List (Symbol × Member) :=
  members.foldl (fun m mem => mapInsert mem.identifier.name mem m) []

/-- `consume_struct`: reconstructs records, ordering members so that `owner`
and `gates` are the first and second members; non-records pass through
unchanged.  The two `unwrap` calls are embedded as `Except.error` on the
unwrap panic. -/
def consume_struct (s : Struct) : Except String Struct :=
  match s.is_record with
  | false => .ok s
  | true =>
    let member_map := buildMemberMap s.members
    match swapRemove symOwner member_map with
    | none => .error unwrapPanicMsg
    | some (ownerMem, m1) =>
      match swapRemove symGates m1 with
      | none => .error unwrapPanicMsg
      | some (gatesMem, m2) =>
        .ok { s with members := ownerMem :: gatesMem :: m2.map (fun p => p.2) }

/-- Modelled from the spec: one rename-table frame, a mapping from an original
symbol to the symbol it currently resolves to (an `IndexMap<Symbol, Symbol>`). -/
abbrev Frame := List (Symbol × Symbol)

/-- Modelled from the spec: the rename table is a stack of frames, innermost
first. -/
abbrev RenameTable := List Frame

/-- Modelled from the spec: `enter()` / `self.push()` pushes a fresh empty
frame. -/
def push (st : RenameTable) : RenameTable := [] :: st

/-- Modelled from the spec: `exit()` / `self.pop()` pops the innermost frame,
discarding its bindings. -/
def pop (st : RenameTable) : RenameTable := st.tail

/-- Lookup of a symbol in a single frame. -/
def lookupFrame (f : Frame) (x : Symbol) : Option Symbol :=
  match f.find? (fun p => p.1 == x) with
  | none => none
  | some p => some p.2

/-- Modelled from the spec: `register` / `rename_table.update` inserts or
overwrites a binding in the innermost frame only. -/
def update (st : RenameTable) (o r : Symbol) : RenameTable :=
  match st with
  | [] => []
  | f :: rest => mapInsert o r f :: rest

/-- Modelled from the spec: `resolve` looks the symbol up innermost-first,
falling through to enclosing frames, returning the first match. -/
def resolve (st : RenameTable) (x : Symbol) : Option Symbol :=
  match st with
  | [] => none
  | f :: rest =>
    match lookupFrame f x with
    | some y => some y
    | none => resolve rest x

/-- Modelled from the spec: a function/finalize input parameter, a name plus a
declared type; never restructured by this pass. -/
structure Input where
  identifier : Identifier
  type_ : String
  deriving DecidableEq, Repr

/-- Modelled from the spec: the statement-level AST is outside the examined
slice; statements are kept abstract. -/
structure Statement where
  raw : Nat
  deriving DecidableEq, Repr

/-- A block: an ordered statement sequence plus span metadata. -/
structure Block where
  statements : List Statement
  span : Span
  deriving DecidableEq, Repr

/-- Modelled from the spec: a finalize sub-declaration (own name, inputs,
output, output type, body block, span). -/
structure Finalize where
  identifier : Identifier
  input : List Input
  output : List String
  output_type : String
  block : Block
  span : Span
  deriving DecidableEq, Repr

/-- Modelled from the spec: a function declaration.  `annotations`,
`call_type`, `output` and `output_type` are carried opaquely. -/
structure Function where
  annotations : List String
  call_type : String
  identifier : Identifier
  input : List Input
  output : List String
  output_type : String
  block : Block
  finalize : Option Finalize
  span : Span
  deriving DecidableEq, Repr

/-- Modelled from the spec: the statement-level consumer (`consume_block`),
kept parametric; it receives the rename table and a block and returns the
renamed statements together with the updated table. -/
abbrev BlockConsumer := RenameTable → Block → List Statement × RenameTable

/-- Modelled from the spec: the block consumer balances every scope it
enters - it returns the table with the (possibly updated) entry frame on top
of the untouched enclosing frames. -/
def Balanced (cb : BlockConsumer) : Prop :=
  ∀ st b, ∃ fr, (cb st b).2 = fr :: st.tail

/-- The input-registration loop of `consume_function`: for each input
parameter, `update(name, name)`. -/
def registerInputs (inputs : List Input) (st : RenameTable) : RenameTable :=
  inputs.foldl (fun t i => update t i.identifier.name i.identifier.name) st

/-- The frame produced by registering the inputs into a base frame. -/
def inputFrame (inputs : List Input) (f : Frame) : Frame :=
  inputs.foldl (fun fr i => mapInsert i.identifier.name i.identifier.name fr) f

/-- The body of the `function.finalize.map(|finalize| ...)` closure of
`consume_function`: push a frame, register finalize's own inputs, consume its
body block, pop, and rebuild the finalize with all other fields unchanged. -/
def consumeFinalize (cb : BlockConsumer) (st : RenameTable) (fin : Finalize) :
    Finalize × RenameTable :=
  let fent := registerInputs fin.input (push st)
  let fres := cb fent fin.block
  ({ identifier := fin.identifier, input := fin.input, output := fin.output,
     output_type := fin.output_type,
     block := { span := fin.block.span, statements := fres.1 },
     span := fin.span }, pop fres.2)

/-- `consume_function`: push a frame, register the inputs, consume the main
block, pop; then, when a finalize is present, repeat independently for its
inputs and body; rebuild the function with all other fields unchanged. -/
def consume_function (cb : BlockConsumer) (st : RenameTable) (f : Function) :
    Function × RenameTable :=
  let st1 := registerInputs f.input (push st)
  let res := cb st1 f.block
  let block : Block := { span := f.block.span, statements := res.1 }
  let st2 := pop res.2
  match f.finalize with
  | none =>
    ({ annotations := f.annotations, call_type := f.call_type,
       identifier := f.identifier, input := f.input, output := f.output,
       output_type := f.output_type, block := block, finalize := none,
       span := f.span }, st2)
  | some fin =>
    let fr := consumeFinalize cb st2 fin
    ({ annotations := f.annotations, call_type := f.call_type,
       identifier := f.identifier, input := f.input, output := f.output,
       output_type := f.output_type, block := block,
       finalize := some fr.1, span := f.span }, fr.2)

/-- Modelled from the spec: a program scope - ordered struct and function
mappings, declared key-value storage mappings (passed through), an id, a span. -/
structure ProgramScope where
  program_id : String
  structs : List (Symbol × Struct)
  mappings : List (Symbol × String)
  functions : List (Symbol × Function)
  span : Span
  deriving DecidableEq, Repr

/-- The struct-mapping rebuild of `consume_program_scope`
(`input.structs.into_iter().map(|(i, s)| (i, self.consume_struct(s))).collect()`);
a struct failure aborts the pass. -/
def consumeStructs : List (Symbol × Struct) → Except String (List (Symbol × Struct))
  | [] => .ok []
  | (n, s) :: rest =>
    match consume_struct s with
    | .error e => .error e
    | .ok s2 =>
      match consumeStructs rest with
      | .error e => .error e
      | .ok rest2 => .ok ((n, s2) :: rest2)

/-- The function-mapping rebuild of `consume_program_scope`, threading the
rename table left to right. -/
def consumeFunctions (cb : BlockConsumer) (st : RenameTable) :
    List (Symbol × Function) → List (Symbol × Function) × RenameTable
  | [] => ([], st)
  | (n, f) :: rest =>
    let r := consume_function cb st f
    let rr := consumeFunctions cb r.2 rest
    ((n, r.1) :: rr.1, rr.2)

/-- `consume_program_scope`: rebuild the struct mapping and the function
mapping in insertion order; `program_id`, `mappings` and `span` pass through. -/
def consume_program_scope (cb : BlockConsumer) (st : RenameTable)
    (input : ProgramScope) : Except String (ProgramScope × RenameTable) :=
  match consumeStructs input.structs with
  | .error e => .error e
  | .ok structs2 =>
    let r := consumeFunctions cb st input.functions
    .ok ({ program_id := input.program_id, structs := structs2,
           mappings := input.mappings, functions := r.1,
           span := input.span }, r.2)

/-- Modelled from the spec: a program owns an ordered mapping from import name
to imported program and an ordered mapping from scope name to program scope. -/
inductive Program where
  | mk : List (Symbol × Program) → List (Symbol × ProgramScope) → Program

/-- The import mapping of a program. -/
def Program.imports : Program → List (Symbol × Program)
  | .mk i _ => i

/-- The program-scope mapping of a program. -/
def Program.program_scopes : Program → List (Symbol × ProgramScope)
  | .mk _ s => s

/-- The scope-mapping rebuild of `consume_program`, threading the rename
table left to right. -/
def consumeScopes (cb : BlockConsumer) (st : RenameTable) :
    List (Symbol × ProgramScope) →
    Except String (List (Symbol × ProgramScope) × RenameTable)
  | [] => .ok ([], st)
  | (n, ps) :: rest =>
    match consume_program_scope cb st ps with
    | .error e => .error e
    | .ok (ps2, st1) =>
      match consumeScopes cb st1 rest with
      | .error e => .error e
      | .ok (rest2, st2) => .ok ((n, ps2) :: rest2, st2)

mutual

/-- `consume_program`: rebuild the import mapping (recursively consuming each
imported program) and then the program-scope mapping. -/
def consume_program (cb : BlockConsumer) (st : RenameTable) :
    Program → Except String (Program × RenameTable)
  | .mk imports scopes =>
    match consumeImports cb st imports with
    | .error e => .error e
    | .ok (imports2, st1) =>
      match consumeScopes cb st1 scopes with
      | .error e => .error e
      | .ok (scopes2, st2) => .ok (.mk imports2 scopes2, st2)

/-- The import-mapping rebuild of `consume_program`
(`input.imports.into_iter().map(|(name, import)| (name, self.consume_program(import))).collect()`). -/
def consumeImports (cb : BlockConsumer) (st : RenameTable) :
    List (Symbol × Program) → Except String (List (Symbol × Program) × RenameTable)
  | [] => .ok ([], st)
  | (n, p) :: rest =>
    match consume_program cb st p with
    | .error e => .error e
    | .ok (p2, st1) =>
      match consumeImports cb st1 rest with
      | .error e => .error e
      | .ok (rest2, st2) => .ok ((n, p2) :: rest2, st2)

end

/-! ### Concrete example values -/

/-- A member with a given name and type (span fixed at 0). -/
def memberNamed (n t : String) : Member := ⟨⟨n, 0⟩, t⟩

/-- A record declared as `{gates, a, b, owner}`. -/
def recGABO : Struct :=
  ⟨⟨"R", 0⟩, [memberNamed "gates" "u64", memberNamed "a" "u64",
              memberNamed "b" "u64", memberNamed "owner" "address"], true, 0⟩

/-- A record with two members both named `x` (the second of type `bool`). -/
def recDupX : Struct :=
  ⟨⟨"R", 0⟩, [memberNamed "x" "u64", memberNamed "owner" "address",
              memberNamed "gates" "u64", memberNamed "x" "bool"], true, 0⟩

/-- A record (declared as `{balance, gates, data, owner}`) with distinct
member names. -/
def recBGDO : Struct :=
  ⟨⟨"R", 0⟩, [memberNamed "balance" "u64", memberNamed "gates" "u64",
              memberNamed "data" "u64", memberNamed "owner" "address"], true, 0⟩

/-- A plain (non-record) struct. -/
def plainStruct : Struct :=
  ⟨⟨"S", 0⟩, [memberNamed "zeta" "u64", memberNamed "alpha" "u64"], false, 0⟩

/-- A record named `token` that lacks the `owner` member. -/
def tokenRec : Struct :=
  ⟨⟨"token", 0⟩, [memberNamed "gates" "u64", memberNamed "amount" "u64"], true, 0⟩

/-- A concrete block consumer: it keeps the statements unchanged and leaves
the rename table's frames as they were. -/
def cbW : BlockConsumer := fun st b => (b.statements, (st.headD []) :: st.tail)

/-- A concrete finalize declaration with its own input `x`. -/
def finW : Finalize :=
  ⟨⟨"finW", 2⟩, [⟨⟨"x", 3⟩, "u64"⟩], ["r1"], "u64", ⟨[⟨7⟩], 4⟩, 5⟩

/-- A concrete function with input `x` and a finalize that also has its own
input `x`. -/
def funW : Function :=
  ⟨["program"], "transition", ⟨"f", 6⟩, [⟨⟨"x", 1⟩, "u64"⟩], ["r0"], "u64",
   ⟨[⟨9⟩], 8⟩, some finW, 10⟩

/-- A concrete program scope holding `plainStruct` and `funW`. -/
def scopeW : ProgramScope :=
  ⟨"main.aleo", [("S", plainStruct)], [("m", "u64")], [("f", funW)], 3⟩

/-- A concrete imported program with one scope. -/
def importW : Program := .mk [] [("dep.aleo", scopeW)]

/-- A concrete program with one import and one scope of its own. -/
def progW : Program := .mk [("dep.aleo", importW)] [("main.aleo", scopeW)]

/-! ### Theorems -/

/-- `cbW` balances the scopes it enters. -/
theorem cbW_balanced : Balanced cbW := fun st _ => ⟨st.headD [], rfl⟩

/-- C9: a non-record struct is returned completely unchanged, for every
declared member order. -/
theorem C9_non_record_identity (s : Struct) (h : s.is_record = false) :
    consume_struct s = .ok s := by
  unfold consume_struct
  rw [h]

/-- C9 witness: the identity transform at a concrete non-record struct. -/
theorem C9_witness : consume_struct plainStruct = .ok plainStruct :=
  C9_non_record_identity plainStruct rfl

/-- C10: a record with two members named `x` is collapsed into a single `x`
member; the later occurrence's value survives (at the earlier occurrence's
map position) and the output has fewer members than the input. -/
theorem C10_duplicate_member_collapse :
    consume_struct recDupX = .ok { recDupX with members :=
      [memberNamed "owner" "address", memberNamed "gates" "u64",
       memberNamed "x" "bool"] }
    ∧ [memberNamed "owner" "address", memberNamed "gates" "u64",
       memberNamed "x" "bool"].length < recDupX.members.length :=
  ⟨rfl, by decide⟩

/-- C1 counterexample: on the record `{gates, a, b, owner}` the swap-removal
of the reserved members reorders the remaining members to `b, a`, so the
output is **not** `[owner, gates, a, b]` as the claim predicts. -/
theorem C1_counterexample :
    consume_struct recGABO = .ok { recGABO with members :=
      [memberNamed "owner" "address", memberNamed "gates" "u64",
       memberNamed "b" "u64", memberNamed "a" "u64"] }
    ∧ ¬ consume_struct recGABO = .ok { recGABO with members :=
      [memberNamed "owner" "address", memberNamed "gates" "u64",
       memberNamed "a" "u64", memberNamed "b" "u64"] } := by
  refine ⟨rfl, fun h => ?_⟩
  injection h.symm.trans (rfl :
    consume_struct recGABO = .ok { recGABO with members :=
      [memberNamed "owner" "address", memberNamed "gates" "u64",
       memberNamed "b" "u64", memberNamed "a" "u64"] }) with h2
  exact absurd (congrArg (fun s => s.members) h2) (by decide)

/-- C4 counterexample: a record named `token` lacking `owner` makes the pass
abort with the fixed `Option::unwrap` panic message, and that diagnostic does
not name the record (`"token"` is not a substring of it). -/
theorem C4_counterexample :
    consume_struct tokenRec = .error unwrapPanicMsg
    ∧ ¬ List.IsInfix "token".toList unwrapPanicMsg.toList :=
  ⟨rfl, by decide⟩

/-! ### `swapRemove` and `buildMemberMap` lemmas -/

/-- Undoing a swap-removal: putting the removed pair back in front is a
permutation of the original map. -/
theorem swapRemove_some_perm {α : Type} (k : Symbol) :
    ∀ (l : List (Symbol × α)) (v : α) (l' : List (Symbol × α)),
    swapRemove k l = some (v, l') → List.Perm ((k, v) :: l') l
  | [], _, _, h => by simp [swapRemove] at h
  | (k', v') :: rest, v, l', h => by
    by_cases hk : (k' == k) = true
    · have hkk : k' = k := eq_of_beq hk
      rw [swapRemove, if_pos hk] at h
      cases hl : rest.getLast? with
      | none =>
        rw [hl] at h
        cases h
        have hrest : rest = [] := by
          cases rest with
          | nil => rfl
          | cons a t => simp [List.getLast?_eq_getLast] at hl
        subst hrest
        rw [hkk]
      | some lastEntry =>
        rw [hl] at h
        cases h
        subst hkk
        refine List.Perm.cons _ ?_
        calc List.Perm (lastEntry :: rest.dropLast) (rest.dropLast ++ [lastEntry]) :=
              (List.perm_append_singleton _ _).symm
          _ = rest := List.dropLast_append_getLast? _ hl
    · rw [swapRemove, if_neg hk] at h
      cases hr : swapRemove k rest with
      | none => rw [hr] at h; cases h
      | some pr =>
        obtain ⟨v₀, rest'⟩ := pr
        rw [hr] at h
        cases h
        exact (List.Perm.swap _ _ _).trans
          (List.Perm.cons _ (swapRemove_some_perm k rest _ _ hr))

/-- Swap-removal fails exactly when the key is absent. -/
theorem swapRemove_eq_none_iff {α : Type} (k : Symbol) :
    ∀ (l : List (Symbol × α)), swapRemove k l = none ↔ k ∉ l.map Prod.fst
  | [] => by simp [swapRemove]
  | (k', v') :: rest => by
    have ih := swapRemove_eq_none_iff (α := α) k rest
    by_cases hk : (k' == k) = true
    · have hkk : k' = k := eq_of_beq hk
      cases hl : rest.getLast? <;> simp [swapRemove, hk, hl, hkk]
    · have hne : k ≠ k' := by
        intro e
        exact hk (by rw [e]; simp)
      cases hr : swapRemove k rest with
      | none => simp [swapRemove, hk, hr, hne, ih.mp hr]
      | some pr =>
        have : k ∈ rest.map Prod.fst := by
          by_contra hmem
          rw [ih.mpr hmem] at hr
          cases hr
        simp [swapRemove, hk, hr, this]

/-- Key membership after an insertion. -/
theorem mem_keys_mapInsert {α : Type} (k x : Symbol) (v : α) :
    ∀ (m : List (Symbol × α)),
    (x ∈ (mapInsert k v m).map Prod.fst ↔ x ∈ m.map Prod.fst ∨ x = k)
  | [] => by simp [mapInsert]
  | (k', v') :: rest => by
    have ih := mem_keys_mapInsert (α := α) k x v rest
    by_cases hk : (k' == k) = true
    · have hkk : k' = k := eq_of_beq hk
      subst hkk
      simp [mapInsert, hk]
      tauto
    · simp [mapInsert, hk, List.map_cons, List.mem_cons, ih]
      tauto

/-- The keys of the member map are exactly the member names. -/
theorem mem_keys_buildMemberMap (ms : List Member) (k : Symbol) :
    k ∈ (buildMemberMap ms).map Prod.fst ↔ k ∈ ms.map (fun m => m.identifier.name) := by
  have main : ∀ (l : List Member) (acc : List (Symbol × Member)),
      k ∈ (l.foldl (fun m mem => mapInsert mem.identifier.name mem m) acc).map Prod.fst
        ↔ k ∈ acc.map Prod.fst ∨ k ∈ l.map (fun m => m.identifier.name) := by
    intro l
    induction l with
    | nil => simp
    | cons m t ih =>
      intro acc
      rw [List.foldl_cons, ih, mem_keys_mapInsert]
      simp [List.map_cons, List.mem_cons]
      tauto
  rw [buildMemberMap, main]
  simp

/-- Inserting a fresh key appends it at the end. -/
theorem mapInsert_of_not_mem {α : Type} (k : Symbol) (v : α) :
    ∀ (m : List (Symbol × α)), k ∉ m.map Prod.fst →
    mapInsert k v m = m ++ [(k, v)]
  | [], _ => rfl
  | (k', v') :: rest, h => by
    have hx : k ≠ k' ∧ k ∉ rest.map Prod.fst := by simpa [not_or] using h
    have hk : (k' == k) = false := by
      simp only [beq_eq_false_iff_ne]
      exact Ne.symm hx.1
    rw [mapInsert, if_neg (by simp [hk]), mapInsert_of_not_mem k v rest hx.2]
    rfl

/-- With pairwise-distinct member names, the member map is exactly the
name-member pairing of the member list, in declaration order. -/
theorem buildMemberMap_eq_of_nodup (ms : List Member)
    (hnd : (ms.map (fun m => m.identifier.name)).Nodup) :
    buildMemberMap ms = ms.map (fun m => (m.identifier.name, m)) := by
  have main : ∀ (l : List Member) (acc : List (Symbol × Member)),
      (l.map (fun m => m.identifier.name)).Nodup →
      (∀ m ∈ l, m.identifier.name ∉ acc.map Prod.fst) →
      l.foldl (fun m mem => mapInsert mem.identifier.name mem m) acc
        = acc ++ l.map (fun m => (m.identifier.name, m)) := by
    intro l
    induction l with
    | nil => intro acc _ _; simp
    | cons m t ih =>
      intro acc hnd2 hdisj
      rw [List.map_cons, List.nodup_cons] at hnd2
      have hstep : mapInsert m.identifier.name m acc = acc ++ [(m.identifier.name, m)] :=
        mapInsert_of_not_mem _ _ acc (hdisj m (List.mem_cons_self m t))
      have hdisj2 : ∀ m2 ∈ t,
          m2.identifier.name ∉ (acc ++ [(m.identifier.name, m)]).map Prod.fst := by
        intro m2 hm2 hc
        rw [List.map_append] at hc
        rcases List.mem_append.mp hc with h | h
        · exact hdisj m2 (List.mem_cons_of_mem m hm2) h
        · have he : m2.identifier.name = m.identifier.name := by simpa using h
          exact hnd2.1 (he ▸ List.mem_map_of_mem (fun m => m.identifier.name) hm2)
      rw [List.foldl_cons, hstep, ih _ hnd2.2 hdisj2, List.append_assoc]
      simp
  rw [buildMemberMap, main ms [] hnd (by simp)]
  simp

/-- A record whose members include `owner` always survives the `owner`
swap-removal. -/
theorem swapRemove_owner_of_mem (ms : List Member)
    (ho : symOwner ∈ ms.map (fun m => m.identifier.name)) :
    ∃ pr, swapRemove symOwner (buildMemberMap ms) = some pr := by
  cases hsw : swapRemove symOwner (buildMemberMap ms) with
  | none =>
    exact absurd ((mem_keys_buildMemberMap ms symOwner).mpr ho)
      ((swapRemove_eq_none_iff symOwner (buildMemberMap ms)).mp hsw)
  | some pr => exact ⟨pr, rfl⟩

/-- C4 (amended): a record lacking `owner` or lacking `gates` makes
`consume_struct` abort with the fixed unwrap-panic diagnostic (which does not
name the record), and when both reserved members are present the failure
branch is unreachable. -/
theorem C4_missing_reserved_member (s : Struct) (hrec : s.is_record = true) :
    ((symOwner ∉ s.members.map (fun m => m.identifier.name)
      ∨ symGates ∉ s.members.map (fun m => m.identifier.name)) →
      consume_struct s = .error unwrapPanicMsg)
    ∧ (symOwner ∈ s.members.map (fun m => m.identifier.name) →
       symGates ∈ s.members.map (fun m => m.identifier.name) →
       ∃ out, consume_struct s = .ok out) := by
  constructor
  · intro hmiss
    by_cases ho2 : symOwner ∈ s.members.map (fun m => m.identifier.name)
    · have hg : symGates ∉ s.members.map (fun m => m.identifier.name) := by
        rcases hmiss with ho | hg
        · exact absurd ho2 ho
        · exact hg
      obtain ⟨⟨v₁, l₁⟩, hpr⟩ := swapRemove_owner_of_mem s.members ho2
      have hperm := swapRemove_some_perm symOwner _ _ _ hpr
      have hg1 : symGates ∉ l₁.map Prod.fst := by
        intro hc
        apply hg
        have hmem : symGates ∈ ((symOwner, v₁) :: l₁).map Prod.fst := by
          simp [hc]
        exact (mem_keys_buildMemberMap s.members symGates).mp
          (((hperm.map Prod.fst).mem_iff).mp hmem)
      have hsw2 : swapRemove symGates l₁ = none :=
        (swapRemove_eq_none_iff symGates l₁).mpr hg1
      simp only [consume_struct, hrec]
      rw [hpr]
      simp [hsw2]
    · have hsw : swapRemove symOwner (buildMemberMap s.members) = none :=
        (swapRemove_eq_none_iff symOwner (buildMemberMap s.members)).mpr
          (fun hc => ho2 ((mem_keys_buildMemberMap s.members symOwner).mp hc))
      simp only [consume_struct, hrec]
      rw [hsw]
  · intro ho hg
    obtain ⟨⟨v₁, l₁⟩, hpr⟩ := swapRemove_owner_of_mem s.members ho
    have hperm := swapRemove_some_perm symOwner _ _ _ hpr
    have hg1 : symGates ∈ l₁.map Prod.fst := by
      have hbm : symGates ∈ (buildMemberMap s.members).map Prod.fst :=
        (mem_keys_buildMemberMap s.members symGates).mpr hg
      have hmem := ((hperm.map Prod.fst).mem_iff).mpr hbm
      rw [List.map_cons] at hmem
      rcases List.mem_cons.mp hmem with h1 | h1
      · exact absurd h1 (by simp [symGates, symOwner])
      · exact h1
    obtain ⟨⟨v₂, l₂⟩, hpr2⟩ : ∃ pr2, swapRemove symGates l₁ = some pr2 := by
      cases hsw2 : swapRemove symGates l₁ with
      | none => exact absurd hg1 ((swapRemove_eq_none_iff symGates l₁).mp hsw2)
      | some pr2 => exact ⟨pr2, rfl⟩
    refine ⟨{ s with members := v₁ :: v₂ :: l₂.map (fun p => p.2) }, ?_⟩
    simp only [consume_struct, hrec]
    rw [hpr]
    simp [hpr2, hrec]

/-- C1 (amended): for a record with pairwise-distinct member names containing
an `owner` member and a `gates` member, `consume_struct` returns the record
with the `owner` member first, the `gates` member second, and the remaining
members being exactly the non-reserved input members - as a multiset (their
relative declaration order is not preserved in general, because the removals
of the reserved entries backfill with the map's last entry). -/
theorem C1_record_member_order (s : Struct) (hrec : s.is_record = true)
    (hnd : (s.members.map (fun m => m.identifier.name)).Nodup)
    (mo mg : Member) (hmo : mo ∈ s.members) (hmon : mo.identifier.name = symOwner)
    (hmg : mg ∈ s.members) (hmgn : mg.identifier.name = symGates) :
    ∃ rest, consume_struct s = .ok { s with members := mo :: mg :: rest }
      ∧ List.Perm rest (s.members.filter
          (fun m => !(m.identifier.name == symOwner || m.identifier.name == symGates))) := by
  have hbm : buildMemberMap s.members = s.members.map (fun m => (m.identifier.name, m)) :=
    buildMemberMap_eq_of_nodup s.members hnd
  have hfst : (s.members.map (fun m => (m.identifier.name, m))).map Prod.fst
      = s.members.map (fun m => m.identifier.name) := by
    rw [List.map_map]
    rfl
  have hndp : (s.members.map (fun m => (m.identifier.name, m))).Nodup :=
    List.Nodup.of_map Prod.fst (by rw [hfst]; exact hnd)
  have hinj := List.inj_on_of_nodup_map hnd
  have ho : symOwner ∈ s.members.map (fun m => m.identifier.name) :=
    hmon ▸ List.mem_map_of_mem (fun m => m.identifier.name) hmo
  obtain ⟨⟨v₁, l₁⟩, hpr⟩ := swapRemove_owner_of_mem s.members ho
  have hperm1 : List.Perm ((symOwner, v₁) :: l₁)
      (s.members.map (fun m => (m.identifier.name, m))) := by
    rw [← hbm]
    exact swapRemove_some_perm symOwner _ _ _ hpr
  have hv1 : v₁ = mo := by
    have hv1m : (symOwner, v₁) ∈ s.members.map (fun m => (m.identifier.name, m)) :=
      hperm1.mem_iff.mp (List.mem_cons_self _ _)
    obtain ⟨m, hm, hme⟩ := List.mem_map.mp hv1m
    obtain ⟨hme1, hme2⟩ := Prod.mk.injEq .. ▸ hme
    rw [← hme2]
    exact hinj hm hmo (by rw [hme1, hmon])
  rw [hv1] at hpr hperm1
  have hgp_mem : (symGates, mg) ∈ s.members.map (fun m => (m.identifier.name, m)) :=
    hmgn ▸ List.mem_map_of_mem (fun m => (m.identifier.name, m)) hmg
  have hgp_ne : ((symGates, mg) : Symbol × Member) ≠ (symOwner, mo) := by
    intro he
    exact absurd (congrArg Prod.fst he) (by simp [symGates, symOwner])
  have hg1 : symGates ∈ l₁.map Prod.fst := by
    rcases List.mem_cons.mp (hperm1.mem_iff.mpr hgp_mem) with h1 | h1
    · exact absurd h1 hgp_ne
    · exact List.mem_map_of_mem Prod.fst h1
  obtain ⟨⟨v₂, l₂⟩, hpr2⟩ : ∃ pr2, swapRemove symGates l₁ = some pr2 := by
    cases hsw2 : swapRemove symGates l₁ with
    | none => exact absurd hg1 ((swapRemove_eq_none_iff symGates l₁).mp hsw2)
    | some pr2 => exact ⟨pr2, rfl⟩
  have hperm2 : List.Perm ((symGates, v₂) :: l₂) l₁ :=
    swapRemove_some_perm symGates _ _ _ hpr2
  have hv2 : v₂ = mg := by
    have hv2m : (symGates, v₂) ∈ s.members.map (fun m => (m.identifier.name, m)) :=
      hperm1.mem_iff.mp
        (List.mem_cons_of_mem _ (hperm2.mem_iff.mp (List.mem_cons_self _ _)))
    obtain ⟨m, hm, hme⟩ := List.mem_map.mp hv2m
    obtain ⟨hme1, hme2⟩ := Prod.mk.injEq .. ▸ hme
    rw [← hme2]
    exact hinj hm hmg (by rw [hme1, hmgn])
  rw [hv2] at hpr2 hperm2
  have hcomb : List.Perm ((symOwner, mo) :: (symGates, mg) :: l₂)
      (s.members.map (fun m => (m.identifier.name, m))) :=
    (hperm2.cons (symOwner, mo)).trans hperm1
  have hmembers : List.Perm (mo :: mg :: l₂.map (fun p => p.2)) s.members := by
    have := hcomb.map (fun p => (p.2 : Member))
    rw [List.map_map,
        show ((fun p => p.2) ∘ fun m => (m.identifier.name, m) : Member → Member) = id
          from rfl, List.map_id] at this
    exact this
  have hndm : s.members.Nodup := List.Nodup.of_map (fun m => m.identifier.name) hnd
  have hrest1 := (List.cons_perm_iff_perm_erase.mp hmembers).2
  have hrest2 := (List.cons_perm_iff_perm_erase.mp hrest1).2
  refine ⟨l₂.map (fun p => p.2), ?_, ?_⟩
  · simp only [consume_struct, hrec]
    rw [hpr]
    simp [hpr2, hrec]
  · rw [List.Nodup.erase_eq_filter hndm, List.Nodup.erase_eq_filter (hndm.filter _),
        List.filter_filter] at hrest2
    have hcongr : ∀ m ∈ s.members,
        ((m != mg) && (m != mo))
          = (!(m.identifier.name == symOwner || m.identifier.name == symGates)) := by
      intro m hm
      by_cases hno : m.identifier.name = symOwner
      · have hmmo : m = mo := hinj hm hmo (by rw [hno, hmon])
        subst hmmo
        simp [hno]
      · by_cases hng : m.identifier.name = symGates
        · have hmmg : m = mg := hinj hm hmg (by rw [hng, hmgn])
          subst hmmg
          simp [hng]
        · have h1 : m ≠ mo := fun he => hno (by rw [he, hmon])
          have h2 : m ≠ mg := fun he => hng (by rw [he, hmgn])
          have hb1 : (m != mg) = true := bne_iff_ne.mpr h2
          have hb2 : (m != mo) = true := bne_iff_ne.mpr h1
          have hb3 : (m.identifier.name == symOwner) = false :=
            beq_eq_false_iff_ne.mpr hno
          have hb4 : (m.identifier.name == symGates) = false :=
            beq_eq_false_iff_ne.mpr hng
          rw [hb1, hb2, hb3, hb4]
          rfl
    rw [List.filter_congr hcongr] at hrest2
    exact hrest2

/-- C1 witness: the amended ordering at the concrete record
`{balance, gates, data, owner}`. -/
theorem C1_witness :
    ∃ rest, consume_struct recBGDO = .ok { recBGDO with members :=
        (memberNamed "owner" "address" :: memberNamed "gates" "u64" :: rest) }
      ∧ List.Perm rest (recBGDO.members.filter
          (fun m => !(m.identifier.name == symOwner || m.identifier.name == symGates))) :=
  C1_record_member_order recBGDO rfl (by decide)
    (memberNamed "owner" "address") (memberNamed "gates" "u64")
    (by decide) (by decide) (by decide) (by decide)

/-- C4 witness: a record missing `owner` aborts with the fixed diagnostic,
and a record with both reserved members succeeds. -/
theorem C4_witness :
    consume_struct tokenRec = .error unwrapPanicMsg
    ∧ ∃ out, consume_struct recBGDO = .ok out :=
  ⟨(C4_missing_reserved_member tokenRec rfl).1 (Or.inl (by decide)),
   (C4_missing_reserved_member recBGDO rfl).2 (by decide) (by decide)⟩

/-! ### Rename-table lemmas -/

/-- Registering inputs only touches the innermost frame. -/
theorem registerInputs_cons : ∀ (l : List Input) (f : Frame) (rest : RenameTable),
    registerInputs l (f :: rest) = inputFrame l f :: rest
  | [], _, _ => rfl
  | i :: t, f, rest =>
    registerInputs_cons t (mapInsert i.identifier.name i.identifier.name f) rest

/-- Registering inputs after a push yields the input frame over the old stack. -/
theorem registerInputs_push (l : List Input) (st : RenameTable) :
    registerInputs l (push st) = inputFrame l [] :: st :=
  registerInputs_cons l [] st

/-- Looking up the inserted key finds the inserted value. -/
theorem lookupFrame_mapInsert_self (k v : Symbol) (f : Frame) :
    lookupFrame (mapInsert k v f) k = some v := by
  induction f with
  | nil => simp [mapInsert, lookupFrame, List.find?]
  | cons p rest ih =>
    obtain ⟨k', v'⟩ := p
    by_cases h : (k' == k) = true
    · simp [mapInsert, h, lookupFrame, List.find?]
    · simp only [mapInsert, h, if_neg, Bool.false_eq_true, ite_false]
      simpa [lookupFrame, List.find?, h] using ih

/-- Insertion of a different key does not change a lookup. -/
theorem lookupFrame_mapInsert_of_ne (k v x : Symbol) (hx : x ≠ k) (f : Frame) :
    lookupFrame (mapInsert k v f) x = lookupFrame f x := by
  have hkx : (k == x) = false := by
    simp only [beq_eq_false_iff_ne]
    exact Ne.symm hx
  induction f with
  | nil => simp [mapInsert, lookupFrame, List.find?, hkx]
  | cons p rest ih =>
    obtain ⟨k', v'⟩ := p
    by_cases h : (k' == k) = true
    · have : (k' == x) = false := by
        rw [eq_of_beq h]; exact hkx
      simp [mapInsert, h, lookupFrame, List.find?, this]
    · by_cases h2 : (k' == x) = true
      · simp [mapInsert, h, lookupFrame, List.find?, h2]
      · simp only [mapInsert, h, Bool.false_eq_true, ite_false]
        simpa [lookupFrame, List.find?, h2] using ih

/-- A symbol not among the registered input names is looked up in the base
frame. -/
theorem lookupFrame_inputFrame_of_not_mem :
    ∀ (l : List Input) (f : Frame) (x : Symbol),
    x ∉ l.map (fun i => i.identifier.name) →
    lookupFrame (inputFrame l f) x = lookupFrame f x
  | [], _, _, _ => rfl
  | i :: t, f, x, h => by
    have hx : x ≠ i.identifier.name ∧ x ∉ t.map (fun i => i.identifier.name) := by
      simpa [not_or] using h
    have ht := lookupFrame_inputFrame_of_not_mem t
      (mapInsert i.identifier.name i.identifier.name f) x hx.2
    rw [show inputFrame (i :: t) f
          = inputFrame t (mapInsert i.identifier.name i.identifier.name f) from rfl,
        ht, lookupFrame_mapInsert_of_ne _ _ _ hx.1]

/-- Every registered input name is mapped to itself in the input frame. -/
theorem lookupFrame_inputFrame_self :
    ∀ (l : List Input) (f : Frame) (x : Symbol),
    x ∈ l.map (fun i => i.identifier.name) →
    lookupFrame (inputFrame l f) x = some x
  | [], _, _, h => absurd h (by simp)
  | i :: t, f, x, h => by
    by_cases hm : x ∈ t.map (fun i => i.identifier.name)
    · exact lookupFrame_inputFrame_self t _ x hm
    · have hx : x = i.identifier.name := by
        rw [List.map_cons] at h
        rcases List.mem_cons.mp h with h1 | h1
        · exact h1
        · exact absurd h1 hm
      rw [show inputFrame (i :: t) f
            = inputFrame t (mapInsert i.identifier.name i.identifier.name f) from rfl,
          lookupFrame_inputFrame_of_not_mem t _ x hm, hx, lookupFrame_mapInsert_self]

/-- A hit in the innermost frame settles resolution. -/
theorem resolve_cons (f : Frame) (rest : RenameTable) (x y : Symbol)
    (h : lookupFrame f x = some y) : resolve (f :: rest) x = some y := by
  simp [resolve, h]

/-! ### `consume_function` structure lemmas -/

/-- `consumeFinalize` restores the rename table it was given, assuming the
block consumer is balanced. -/
theorem consumeFinalize_state (cb : BlockConsumer) (hb : Balanced cb)
    (st : RenameTable) (fin : Finalize) : (consumeFinalize cb st fin).2 = st := by
  obtain ⟨fr, hfr⟩ := hb (registerInputs fin.input (push st)) fin.block
  rw [registerInputs_push] at hfr
  simp [consumeFinalize, pop, registerInputs_push, hfr]

/-- The finalize value produced by `consumeFinalize`. -/
theorem consumeFinalize_fst (cb : BlockConsumer) (st : RenameTable) (fin : Finalize) :
    (consumeFinalize cb st fin).1 =
    { identifier := fin.identifier, input := fin.input, output := fin.output,
      output_type := fin.output_type,
      block := { span := fin.block.span,
                 statements := (cb (registerInputs fin.input (push st)) fin.block).1 },
      span := fin.span } := rfl

/-- The function value produced by `consume_function`, in closed form. -/
theorem consume_function_fst (cb : BlockConsumer) (st : RenameTable) (f : Function) :
    (consume_function cb st f).1 =
    { annotations := f.annotations, call_type := f.call_type,
      identifier := f.identifier, input := f.input, output := f.output,
      output_type := f.output_type,
      block := { span := f.block.span,
                 statements := (cb (registerInputs f.input (push st)) f.block).1 },
      finalize := f.finalize.map (fun fin =>
        (consumeFinalize cb (pop (cb (registerInputs f.input (push st)) f.block).2) fin).1),
      span := f.span } := by
  rcases hf : f.finalize with _ | fin <;> simp [consume_function, hf]

/-- `consume_function` restores the rename table it was given, assuming the
block consumer is balanced. -/
theorem consume_function_state (cb : BlockConsumer) (hb : Balanced cb)
    (st : RenameTable) (f : Function) : (consume_function cb st f).2 = st := by
  obtain ⟨fr, hfr⟩ := hb (registerInputs f.input (push st)) f.block
  have hpop : pop (cb (registerInputs f.input (push st)) f.block).2 = st := by
    rw [hfr, registerInputs_push]; rfl
  rcases hf : f.finalize with _ | fin
  · simp [consume_function, hf, hpop]
  · simp [consume_function, hf, hpop, consumeFinalize_state cb hb st fin]

/-- The rename table seen by the finalize body: the pre-call stack with the
finalize input frame pushed on top, independent of the main block. -/
theorem consume_function_finalize_entry (cb : BlockConsumer) (hb : Balanced cb)
    (st : RenameTable) (f : Function) (fin : Finalize) (hf : f.finalize = some fin) :
    (consume_function cb st f).1.finalize = some
      { identifier := fin.identifier, input := fin.input, output := fin.output,
        output_type := fin.output_type,
        block := { span := fin.block.span,
                   statements := (cb (registerInputs fin.input (push st)) fin.block).1 },
        span := fin.span } := by
  obtain ⟨fr, hfr⟩ := hb (registerInputs f.input (push st)) f.block
  have hpop : pop (cb (registerInputs f.input (push st)) f.block).2 = st := by
    rw [hfr, registerInputs_push]; rfl
  rw [consume_function_fst, hf]
  simp [hpop, consumeFinalize_fst]

/-- C5: assuming the statement-level consumer balances the scopes it enters,
`consume_function` leaves the rename-table scope stack at exactly its
pre-call depth (indeed at exactly its pre-call value). -/
theorem C5_scope_stack_balanced (cb : BlockConsumer) (hb : Balanced cb)
    (st : RenameTable) (f : Function) :
    ((consume_function cb st f).2).length = st.length
    ∧ (consume_function cb st f).2 = st := by
  have h := consume_function_state cb hb st f
  exact ⟨by rw [h], h⟩

/-- C5 witness: the stack is restored at a concrete consumer, table and
function. -/
theorem C5_witness :
    ((consume_function cbW [[("a", "a")]] funW).2).length = [[("a", "a")]].length
    ∧ (consume_function cbW [[("a", "a")]] funW).2 = [[("a", "a")]] :=
  C5_scope_stack_balanced cbW cbW_balanced [[("a", "a")]] funW

/-- C7: `consume_function` copies `annotations`, `call_type`, `identifier`,
`input`, `output`, `output_type` and `span` through unchanged, the rebuilt
main block keeps the input block's span, and a present finalize keeps its
`identifier`, `input`, `output`, `output_type` and `span`, with its rebuilt
block keeping the finalize block's span. -/
theorem C7_field_preservation (cb : BlockConsumer) (st : RenameTable) (f : Function) :
    (consume_function cb st f).1.annotations = f.annotations
    ∧ (consume_function cb st f).1.call_type = f.call_type
    ∧ (consume_function cb st f).1.identifier = f.identifier
    ∧ (consume_function cb st f).1.input = f.input
    ∧ (consume_function cb st f).1.output = f.output
    ∧ (consume_function cb st f).1.output_type = f.output_type
    ∧ (consume_function cb st f).1.span = f.span
    ∧ (consume_function cb st f).1.block.span = f.block.span
    ∧ (f.finalize = none → (consume_function cb st f).1.finalize = none)
    ∧ (∀ fin, f.finalize = some fin →
        ∃ b : Block, (consume_function cb st f).1.finalize = some
          { identifier := fin.identifier, input := fin.input, output := fin.output,
            output_type := fin.output_type, block := b, span := fin.span }
          ∧ b.span = fin.block.span) := by
  rw [consume_function_fst]
  refine ⟨rfl, rfl, rfl, rfl, rfl, rfl, rfl, rfl, fun h => by simp [h], fun fin hf => ?_⟩
  rw [hf]
  exact ⟨(consumeFinalize cb (pop (cb (registerInputs f.input (push st)) f.block).2) fin).1.block,
         by simp [consumeFinalize_fst], by simp [consumeFinalize_fst]⟩

/-- C7 witness: field preservation at a concrete consumer, table and
function with a finalize. -/
theorem C7_witness :
    (consume_function cbW [] funW).1.call_type = funW.call_type
    ∧ (consume_function cbW [] funW).1.span = funW.span
    ∧ ∃ b : Block, (consume_function cbW [] funW).1.finalize = some
        { identifier := finW.identifier, input := finW.input, output := finW.output,
          output_type := finW.output_type, block := b, span := finW.span }
        ∧ b.span = finW.block.span :=
  ⟨(C7_field_preservation cbW [] funW).2.1,
   (C7_field_preservation cbW [] funW).2.2.2.2.2.2.1,
   (C7_field_preservation cbW [] funW).2.2.2.2.2.2.2.2.2 finW rfl⟩

/-- C2: assuming a balanced block consumer, the main block is consumed at the
pre-call stack extended by exactly the frame of the function's own inputs, and
the finalize block is consumed at the pre-call stack extended by exactly the
frame of finalize's own inputs - a clean frame never containing main-block
bindings (which were popped) - and every finalize input resolves there to
finalize's own registered name. -/
theorem C2_finalize_scope_isolation (cb : BlockConsumer) (hb : Balanced cb)
    (st : RenameTable) (f : Function) (fin : Finalize) (hf : f.finalize = some fin) :
    (consume_function cb st f).1.block.statements
      = (cb (registerInputs f.input (push st)) f.block).1
    ∧ (consume_function cb st f).1.finalize = some
        { identifier := fin.identifier, input := fin.input, output := fin.output,
          output_type := fin.output_type,
          block := { span := fin.block.span,
                     statements := (cb (registerInputs fin.input (push st)) fin.block).1 },
          span := fin.span }
    ∧ (∀ x, x ∈ fin.input.map (fun i => i.identifier.name) →
        resolve (registerInputs fin.input (push st)) x = some x) := by
  refine ⟨by rw [consume_function_fst],
          consume_function_finalize_entry cb hb st f fin hf, fun x hx => ?_⟩
  rw [registerInputs_push]
  exact resolve_cons _ _ _ _ (lookupFrame_inputFrame_self fin.input [] x hx)

/-- C2 witness: at a concrete function whose input is `x` and whose finalize
also declares input `x`, the finalize block is consumed at the clean
finalize-input frame and `x` resolves there to its own registered name. -/
theorem C2_witness :
    (consume_function cbW [] funW).1.finalize = some
      { identifier := finW.identifier, input := finW.input, output := finW.output,
        output_type := finW.output_type,
        block := { span := finW.block.span,
                   statements := (cbW (registerInputs finW.input (push [])) finW.block).1 },
        span := finW.span }
    ∧ resolve (registerInputs finW.input (push [])) "x" = some "x" :=
  ⟨(C2_finalize_scope_isolation cbW cbW_balanced [] funW finW rfl).2.1,
   (C2_finalize_scope_isolation cbW cbW_balanced [] funW finW rfl).2.2 "x" (by decide)⟩

/-- C6: every declared input name is registered in the freshly pushed frame
mapped to itself (and resolves to itself) before the body is consumed - for
the main block and likewise for a finalize's own inputs - and the input
parameter lists appear unchanged in the output. -/
theorem C6_input_registration (cb : BlockConsumer) (st : RenameTable) (f : Function) :
    (consume_function cb st f).1.input = f.input
    ∧ (consume_function cb st f).1.block.statements
        = (cb (registerInputs f.input (push st)) f.block).1
    ∧ (∀ x, x ∈ f.input.map (fun i => i.identifier.name) →
        lookupFrame ((registerInputs f.input (push st)).headD []) x = some x
        ∧ resolve (registerInputs f.input (push st)) x = some x)
    ∧ (∀ fin, f.finalize = some fin →
        (∀ (st' : RenameTable) (x : Symbol),
          x ∈ fin.input.map (fun i => i.identifier.name) →
          lookupFrame ((registerInputs fin.input (push st')).headD []) x = some x)
        ∧ ∃ b : Block, (consume_function cb st f).1.finalize = some
            { identifier := fin.identifier, input := fin.input, output := fin.output,
              output_type := fin.output_type, block := b, span := fin.span }) := by
  refine ⟨by rw [consume_function_fst], by rw [consume_function_fst],
          fun x hx => ?_, fun fin hf => ⟨fun st' x hx => ?_, ?_⟩⟩
  · rw [registerInputs_push]
    exact ⟨lookupFrame_inputFrame_self f.input [] x hx,
           resolve_cons _ _ _ _ (lookupFrame_inputFrame_self f.input [] x hx)⟩
  · rw [registerInputs_push]
    exact lookupFrame_inputFrame_self fin.input [] x hx
  · rw [consume_function_fst, hf]
    exact ⟨(consumeFinalize cb (pop (cb (registerInputs f.input (push st)) f.block).2) fin).1.block,
           by simp [consumeFinalize_fst]⟩

/-! ### Program-scope and program traversal lemmas -/

/-- `consumeStructs` keeps keys and order and rewrites every struct by
`consume_struct`. -/
theorem consumeStructs_forall : ∀ (l l2 : List (Symbol × Struct)),
    consumeStructs l = .ok l2 →
    List.Forall₂ (fun a b => a.1 = b.1 ∧ consume_struct a.2 = .ok b.2) l l2
  | [], _, h => by cases h; exact .nil
  | (n, s) :: rest, l2, h => by
    unfold consumeStructs at h
    cases hs : consume_struct s with
    | error e => rw [hs] at h; cases h
    | ok s2 =>
      rw [hs] at h
      cases hr : consumeStructs rest with
      | error e => rw [hr] at h; cases h
      | ok rest2 =>
        rw [hr] at h
        cases h
        exact .cons ⟨rfl, hs⟩ (consumeStructs_forall rest rest2 hr)

/-- `consumeFunctions` keeps keys and order and rewrites every function by
`consume_function` (at some intermediate rename table). -/
theorem consumeFunctions_forall (cb : BlockConsumer) :
    ∀ (st : RenameTable) (l : List (Symbol × Function)),
    List.Forall₂ (fun a b => a.1 = b.1 ∧ ∃ s1 s2, consume_function cb s1 a.2 = (b.2, s2))
      l (consumeFunctions cb st l).1
  | _, [] => .nil
  | st, (_, f) :: rest =>
    .cons ⟨rfl, st, (consume_function cb st f).2, rfl⟩
      (consumeFunctions_forall cb (consume_function cb st f).2 rest)

/-- `consumeFunctions` restores the rename table, assuming a balanced block
consumer. -/
theorem consumeFunctions_state (cb : BlockConsumer) (hb : Balanced cb) :
    ∀ (st : RenameTable) (l : List (Symbol × Function)),
    (consumeFunctions cb st l).2 = st
  | _, [] => rfl
  | st, (n, f) :: rest => by
    rw [show (consumeFunctions cb st ((n, f) :: rest)).2
          = (consumeFunctions cb (consume_function cb st f).2 rest).2 from rfl,
        consumeFunctions_state cb hb (consume_function cb st f).2 rest,
        consume_function_state cb hb st f]

/-- `consume_program_scope` restores the rename table, assuming a balanced
block consumer. -/
theorem consume_program_scope_state (cb : BlockConsumer) (hb : Balanced cb)
    (st : RenameTable) (ps out : ProgramScope) (st2 : RenameTable)
    (h : consume_program_scope cb st ps = .ok (out, st2)) : st2 = st := by
  unfold consume_program_scope at h
  cases hs : consumeStructs ps.structs with
  | error e => rw [hs] at h; cases h
  | ok structs2 =>
    rw [hs] at h
    cases h
    exact consumeFunctions_state cb hb st ps.functions

/-- `consumeScopes` restores the rename table and consumes every scope
against that same table, assuming a balanced block consumer. -/
theorem consumeScopes_char (cb : BlockConsumer) (hb : Balanced cb) :
    ∀ (st : RenameTable) (l l2 : List (Symbol × ProgramScope)) (st2 : RenameTable),
    consumeScopes cb st l = .ok (l2, st2) →
    st2 = st
    ∧ List.Forall₂ (fun a b => a.1 = b.1 ∧ consume_program_scope cb st a.2 = .ok (b.2, st))
        l l2
  | st, [], _, _, h => by cases h; exact ⟨rfl, .nil⟩
  | st, (n, ps) :: rest, l2, st2, h => by
    unfold consumeScopes at h
    cases hps : consume_program_scope cb st ps with
    | error e => rw [hps] at h; cases h
    | ok pr =>
      obtain ⟨ps2, st1⟩ := pr
      rw [hps] at h
      have hst1 : st1 = st := consume_program_scope_state cb hb st ps ps2 st1 hps
      rw [hst1] at hps h
      dsimp only at h
      cases hr : consumeScopes cb st rest with
      | error e => rw [hr] at h; cases h
      | ok pr2 =>
        obtain ⟨rest2, st3⟩ := pr2
        rw [hr] at h
        cases h
        have ih := consumeScopes_char cb hb st rest _ _ hr
        exact ⟨ih.1, .cons ⟨rfl, hps⟩ ih.2⟩

mutual

/-- `consume_program` restores the rename table; every import and every scope
is consumed against that same pristine table, assuming a balanced block
consumer. -/
theorem consume_program_char (cb : BlockConsumer) (hb : Balanced cb) :
    ∀ (st : RenameTable) (p out : Program) (st2 : RenameTable),
    consume_program cb st p = .ok (out, st2) →
    st2 = st
    ∧ List.Forall₂ (fun a b => a.1 = b.1 ∧ consume_program cb st a.2 = .ok (b.2, st))
        p.imports out.imports
    ∧ List.Forall₂ (fun a b => a.1 = b.1 ∧ consume_program_scope cb st a.2 = .ok (b.2, st))
        p.program_scopes out.program_scopes
  | st, .mk imports scopes, out, st2, h => by
    unfold consume_program at h
    cases hi : consumeImports cb st imports with
    | error e => rw [hi] at h; cases h
    | ok pr =>
      obtain ⟨imports2, st1⟩ := pr
      rw [hi] at h
      have hichar := consumeImports_char cb hb st imports imports2 st1 hi
      have hst1 : st1 = st := hichar.1
      rw [hst1] at h
      dsimp only at h
      cases hs : consumeScopes cb st scopes with
      | error e => rw [hs] at h; cases h
      | ok pr2 =>
        obtain ⟨scopes2, st3⟩ := pr2
        rw [hs] at h
        cases h
        have hschar := consumeScopes_char cb hb st scopes _ _ hs
        exact ⟨hschar.1, hichar.2, hschar.2⟩

/-- `consumeImports` restores the rename table and consumes every imported
program against that same table, assuming a balanced block consumer. -/
theorem consumeImports_char (cb : BlockConsumer) (hb : Balanced cb) :
    ∀ (st : RenameTable) (l l2 : List (Symbol × Program)) (st2 : RenameTable),
    consumeImports cb st l = .ok (l2, st2) →
    st2 = st
    ∧ List.Forall₂ (fun a b => a.1 = b.1 ∧ consume_program cb st a.2 = .ok (b.2, st))
        l l2
  | st, [], _, _, h => by cases h; exact ⟨rfl, .nil⟩
  | st, (n, p) :: rest, l2, st2, h => by
    unfold consumeImports at h
    cases hp : consume_program cb st p with
    | error e => rw [hp] at h; cases h
    | ok pr =>
      obtain ⟨p2, st1⟩ := pr
      rw [hp] at h
      have hpchar := consume_program_char cb hb st p p2 st1 hp
      have hst1 : st1 = st := hpchar.1
      rw [hst1] at hp h
      dsimp only at h
      cases hr : consumeImports cb st rest with
      | error e => rw [hr] at h; cases h
      | ok pr2 =>
        obtain ⟨rest2, st3⟩ := pr2
        rw [hr] at h
        cases h
        have ih := consumeImports_char cb hb st rest _ _ hr
        exact ⟨ih.1, .cons ⟨rfl, hp⟩ ih.2⟩

end

/-- C8: `consume_program_scope` passes `program_id`, `mappings` and `span`
through unchanged and rebuilds the struct and function mappings with the same
keys in the same insertion order, values rewritten by `consume_struct` and
`consume_function` respectively. -/
theorem C8_program_scope_rebuild (cb : BlockConsumer) (st : RenameTable)
    (ps out : ProgramScope) (st2 : RenameTable)
    (h : consume_program_scope cb st ps = .ok (out, st2)) :
    out.program_id = ps.program_id ∧ out.mappings = ps.mappings ∧ out.span = ps.span
    ∧ List.Forall₂ (fun a b => a.1 = b.1 ∧ consume_struct a.2 = .ok b.2)
        ps.structs out.structs
    ∧ List.Forall₂ (fun a b => a.1 = b.1 ∧ ∃ s1 s2, consume_function cb s1 a.2 = (b.2, s2))
        ps.functions out.functions := by
  unfold consume_program_scope at h
  cases hs : consumeStructs ps.structs with
  | error e => rw [hs] at h; cases h
  | ok structs2 =>
    rw [hs] at h
    cases h
    exact ⟨rfl, rfl, rfl, consumeStructs_forall ps.structs structs2 hs,
           consumeFunctions_forall cb st ps.functions⟩

/-- C8 witness: the rebuild characterization at a concrete scope. -/
theorem C8_witness :
    List.Forall₂ (fun a b => a.1 = b.1 ∧ consume_struct a.2 = .ok b.2)
      scopeW.structs scopeW.structs
    ∧ List.Forall₂ (fun a b => a.1 = b.1 ∧ ∃ s1 s2, consume_function cbW s1 a.2 = (b.2, s2))
        scopeW.functions scopeW.functions :=
  ⟨(C8_program_scope_rebuild cbW [] scopeW scopeW [] rfl).2.2.2.1,
   (C8_program_scope_rebuild cbW [] scopeW scopeW [] rfl).2.2.2.2⟩

/-- C3: assuming a balanced block consumer, `consume_program` returns the
rename table to exactly its pre-call value; every imported program is consumed
to completion against that pristine table (leaving no trace in it), and every
program scope of the importer is consumed against that very same table - so
rename-table state from imports is never visible to the importer and vice
versa. -/
theorem C3_import_isolation (cb : BlockConsumer) (hb : Balanced cb)
    (st : RenameTable) (p out : Program) (st2 : RenameTable)
    (h : consume_program cb st p = .ok (out, st2)) :
    st2 = st
    ∧ List.Forall₂ (fun a b => a.1 = b.1 ∧ consume_program cb st a.2 = .ok (b.2, st))
        p.imports out.imports
    ∧ List.Forall₂ (fun a b => a.1 = b.1 ∧ consume_program_scope cb st a.2 = .ok (b.2, st))
        p.program_scopes out.program_scopes :=
  consume_program_char cb hb st p out st2 h

/-- C3 witness: import isolation at a concrete program with one import. -/
theorem C3_witness :
    List.Forall₂ (fun a b => a.1 = b.1 ∧ consume_program cbW [] a.2 = .ok (b.2, []))
      progW.imports progW.imports
    ∧ List.Forall₂ (fun a b => a.1 = b.1 ∧ consume_program_scope cbW [] a.2 = .ok (b.2, []))
        progW.program_scopes progW.program_scopes :=
  ⟨(C3_import_isolation cbW cbW_balanced [] progW progW [] rfl).2.1,
   (C3_import_isolation cbW cbW_balanced [] progW progW [] rfl).2.2⟩

/-- C6 witness: at a concrete function, the input list is unchanged and the
concrete input name `x` is registered mapped to itself in the fresh frame,
for the main block and for the finalize. -/
theorem C6_witness :
    (consume_function cbW [] funW).1.input = funW.input
    ∧ lookupFrame ((registerInputs funW.input (push [])).headD []) "x" = some "x"
    ∧ lookupFrame ((registerInputs finW.input (push [[("y", "y")]])).headD []) "x" = some "x" :=
  ⟨(C6_input_registration cbW [] funW).1,
   ((C6_input_registration cbW [] funW).2.2.1 "x" (by decide)).1,
   ((C6_input_registration cbW [] funW).2.2.2 finW rfl).1 [[("y", "y")]] "x" (by decide)⟩

end SSA
